import Mathlib

/-!
Verification development for the spektr repository: a shallow embedding of
the scanner pipeline (src/scanner/mod.rs, src/scanner/strategy.rs) and of the
TUI tree / selection state machine (src/tui/tree.rs, src/tui/app_state.rs),
together with theorems settling the specification claims.

Filesystem paths are modelled as lists of components (Rust Path components);
Rust Path::starts_with is component-wise list prefixing, Path::join appends
the components of the joined (relative) fragment, and components().count()
is list length.  The filesystem itself is abstracted by explicit parameters:
an existence predicate for directory-entry checks and a walk function
returning the entries a directory walk yields (each entry either a value or
an I/O error, as the jwalk iterator does).
-/

/-- A filesystem path, as its list of components. -/
abbrev FsPath := List String

/-- Models RiskLevel (src/scanner/strategy.rs). -/
inductive RiskLevel where
  | Low
  | Medium
  | High
deriving DecidableEq, Repr

/-- Models a CleaningStrategy trait object (src/scanner/strategy.rs): its
name, the marker files whose existence detect() checks (Android checks two,
joined by or; the others one), and the relative target directories, each as
a component list (the Android target "app/build" has two components). -/
structure Strategy where
  name : String
  markers : List String
  targets : List (List String)
deriving DecidableEq, Repr

/-- detect(): the marker-existence check of every built-in strategy, over an
abstract filesystem existence predicate. -/
def Strategy.detect (fs_exists : FsPath → Bool) (s : Strategy) (path : FsPath) : Bool :=
  s.markers.any (fun m => fs_exists (path ++ [m]))

/-- The Node.js built-in strategy. -/
def nodeStrategy : Strategy :=
  { name := "Node.js", markers := ["package.json"],
    targets := [["node_modules"], [".next"], ["dist"], ["build"]] }

/-- The Rust built-in strategy. -/
def rustStrategy : Strategy :=
  { name := "Rust", markers := ["Cargo.toml"], targets := [["target"]] }

/-- The Flutter built-in strategy. -/
def flutterStrategy : Strategy :=
  { name := "Flutter", markers := ["pubspec.yaml"],
    targets := [["build"], [".dart_tool"]] }

/-- The Android built-in strategy. -/
def androidStrategy : Strategy :=
  { name := "Android", markers := ["build.gradle", "build.gradle.kts"],
    targets := [["app", "build"], ["build"], [".gradle"]] }

/-- Models default_strategies() (src/scanner/strategy.rs). -/
def default_strategies : List Strategy :=
  [nodeStrategy, rustStrategy, flutterStrategy, androidStrategy]

/-- Models the local struct Candidate of Scanner::scan: a matched directory
together with the index of the strategy that matched it. -/
structure Candidate where
  root : FsPath
  strategy_idx : Nat
deriving DecidableEq, Repr

/-- The target list of the strategy a candidate refers to ([] if the index
is out of range; Scanner::scan only builds in-range indices). -/
def stratTargets (strategies : List Strategy) (idx : Nat) : List (List String) :=
  ((strategies.get? idx).map Strategy.targets).getD []

/-- The strategy name a candidate refers to ("" if out of range). -/
def stratName (strategies : List Strategy) (idx : Nat) : String :=
  ((strategies.get? idx).map Strategy.name).getD ""

/-- The resolved target paths of a candidate: candidate.root.join(target_name)
for each target of its strategy, in order (Scanner::scan, lines 95-97). -/
def resolvedTargets (strategies : List Strategy) (c : Candidate) : List FsPath :=
  (stratTargets strategies c.strategy_idx).map (fun t => c.root ++ t)

/-- The comparison Scanner::scan sorts candidates by before deduplication:
root.components().count(), ascending (line 74). -/
def lenLE (a b : Candidate) : Prop := a.root.length ≤ b.root.length

instance : DecidableRel lenLE := fun a b => Nat.decLe a.root.length b.root.length

instance : IsTotal Candidate lenLE := ⟨fun a b => Nat.le_total a.root.length b.root.length⟩

instance : IsTrans Candidate lenLE := ⟨fun _ _ _ h1 h2 => Nat.le_trans h1 h2⟩

/-- Models the deduplication loop of Scanner::scan (lines 79-100): walk the
(sorted) candidates, keeping a list of ignored prefixes; a candidate whose
root starts with some ignored entry is skipped, otherwise it is accepted and
the resolved target paths of its strategy are appended to the ignored list.
Returns the accepted candidates and the final ignored list. -/
def dedupLoop (strategies : List Strategy) :
    List Candidate → List FsPath → List Candidate × List FsPath
  | [], ignored => ([], ignored)
  | c :: cs, ignored =>
    if ignored.any (fun pre => pre.isPrefixOf c.root) then
      dedupLoop strategies cs ignored
    else
      let ignored2 := ignored ++ resolvedTargets strategies c
      let rest := dedupLoop strategies cs ignored2
      (c :: rest.1, rest.2)

/-- Phase 2 of Scanner::scan: sort by component count ascending (a stable
sort, like Rust sort_by) and run the deduplication loop with an empty
ignored list. -/
def dedupPhase (strategies : List Strategy) (candidates : List Candidate) : List Candidate :=
  (dedupLoop strategies (List.insertionSort lenLE candidates) []).1

/-- Models CleanableProject (src/scanner/mod.rs). -/
structure CleanableProject where
  root_path : FsPath
  strategy_name : String
  targets : List FsPath
  total_size : Nat
  risk_level : RiskLevel
deriving DecidableEq, Repr

theorem dedupLoop_sublist (strategies : List Strategy) :
    ∀ (cs : List Candidate) (ign : List FsPath),
      (dedupLoop strategies cs ign).1.Sublist cs := by
  intro cs
  induction cs with
  | nil => intro ign; simp [dedupLoop]
  | cons c rest ih =>
    intro ign
    rw [dedupLoop]
    by_cases h : ign.any (fun pre => pre.isPrefixOf c.root)
    · simp only [h, if_pos]
      exact (ih ign).trans (List.sublist_cons_self c rest)
    · simp only [h, Bool.false_eq_true, if_neg, not_false_iff]
      exact (ih _).cons₂ c

theorem dedupLoop_not_prefixed (strategies : List Strategy) :
    ∀ (cs : List Candidate) (ign : List FsPath),
      ∀ v ∈ (dedupLoop strategies cs ign).1, ∀ p ∈ ign, ¬ p.isPrefixOf v.root := by
  intro cs
  induction cs with
  | nil => intro ign v hv; simp [dedupLoop] at hv
  | cons c rest ih =>
    intro ign v hv p hp
    rw [dedupLoop] at hv
    by_cases h : ign.any (fun pre => pre.isPrefixOf c.root)
    · simp only [h, if_pos] at hv
      exact ih ign v hv p hp
    · simp only [h, Bool.false_eq_true, if_neg, not_false_iff, List.mem_cons] at hv
      rcases hv with rfl | hv
      · intro hpre
        exact h (List.any_eq_true.mpr ⟨p, hp, hpre⟩)
      · exact ih _ v hv p (List.mem_append_left _ hp)

/-- The accepted candidates are pairwise non-nested through targets: for any
accepted candidate a and any candidate b accepted after it, no resolved
target path of a is a prefix of the root of b. -/
theorem dedupLoop_pairwise (strategies : List Strategy) :
    ∀ (cs : List Candidate) (ign : List FsPath),
      (dedupLoop strategies cs ign).1.Pairwise
        (fun a b => ∀ t ∈ resolvedTargets strategies a, ¬ t.isPrefixOf b.root) := by
  intro cs
  induction cs with
  | nil => intro ign; simp [dedupLoop]
  | cons c rest ih =>
    intro ign
    rw [dedupLoop]
    by_cases h : ign.any (fun pre => pre.isPrefixOf c.root)
    · simp only [h, if_pos]
      exact ih ign
    · simp only [h, Bool.false_eq_true, if_neg, not_false_iff]
      refine List.pairwise_cons.mpr ⟨?_, ih _⟩
      intro b hb t ht
      exact dedupLoop_not_prefixed strategies rest _ b hb t
        (List.mem_append_right ign ht)

/-- The final ignored list is the initial one followed by the resolved
target paths of the accepted candidates, in acceptance order. -/
theorem dedupLoop_ignored (strategies : List Strategy) :
    ∀ (cs : List Candidate) (ign : List FsPath),
      (dedupLoop strategies cs ign).2 =
        ign ++ ((dedupLoop strategies cs ign).1.map (resolvedTargets strategies)).flatten := by
  intro cs
  induction cs with
  | nil => intro ign; simp [dedupLoop]
  | cons c rest ih =>
    intro ign
    rw [dedupLoop]
    by_cases h : ign.any (fun pre => pre.isPrefixOf c.root)
    · simp only [h, if_pos]
      exact ih ign
    · simp only [h, Bool.false_eq_true, if_neg, not_false_iff, List.map_cons,
        List.flatten_cons]
      rw [ih]
      simp [List.append_assoc]

/-- A candidate that was dropped by the deduplication loop is a descendant
of an ignored path: either one from the initial list, or a resolved target
of some accepted candidate. -/
theorem dedupLoop_dropped (strategies : List Strategy) :
    ∀ (cs : List Candidate) (ign : List FsPath) (c : Candidate),
      c ∈ cs → c ∉ (dedupLoop strategies cs ign).1 →
      ∃ p, (p ∈ ign ∨ ∃ a ∈ (dedupLoop strategies cs ign).1,
              p ∈ resolvedTargets strategies a) ∧ p.isPrefixOf c.root := by
  intro cs
  induction cs with
  | nil => intro ign c hc; simp at hc
  | cons d rest ih =>
    intro ign c hc hnot
    rw [dedupLoop] at hnot ⊢
    by_cases h : ign.any (fun pre => pre.isPrefixOf d.root)
    · simp only [h, if_pos] at hnot ⊢
      rcases List.mem_cons.mp hc with rfl | hc2
      · rcases List.any_eq_true.mp h with ⟨p, hp, hpre⟩
        exact ⟨p, Or.inl hp, hpre⟩
      · exact ih ign c hc2 hnot
    · simp only [h, Bool.false_eq_true, if_neg, not_false_iff, List.mem_cons] at hnot ⊢
      push_neg at hnot
      rcases List.mem_cons.mp hc with rfl | hc2
      · exact absurd rfl hnot.1
      · rcases ih _ c hc2 hnot.2 with ⟨p, hloc, hpre⟩
        refine ⟨p, ?_, hpre⟩
        rcases hloc with hig | ⟨a, ha, hpa⟩
        · rcases List.mem_append.mp hig with hig1 | hig2
          · exact Or.inl hig1
          · exact Or.inr ⟨d, Or.inl rfl, hig2⟩
        · exact Or.inr ⟨a, Or.inr ha, hpa⟩

/-- Models Scanner::find_targets (src/scanner/mod.rs lines 137-148): join
each relative target name onto the root and keep the ones that exist. -/
def find_targets (fs_exists : FsPath → Bool) (root : FsPath)
    (targets : List (List String)) : List FsPath :=
  (targets.map (fun t => root ++ t)).filter fs_exists

/-- One entry yielded by walking a directory tree for sizing: whether it is
a regular file, and its metadata size (itself fallible, entry.metadata()?). -/
structure WalkFile where
  is_file : Bool
  metadata : Except String Nat
deriving Repr

/-- Total size of the entries one directory walk yields, with the error
propagation of Scanner::calculate_size (entry? and entry.metadata()?): the
first error aborts the computation. -/
def sizeOfEntries : List (Except String WalkFile) → Except String Nat
  | [] => Except.ok 0
  | Except.error e :: _ => Except.error e
  | Except.ok f :: rest =>
    if f.is_file then
      match f.metadata with
      | Except.error e => Except.error e
      | Except.ok m =>
        match sizeOfEntries rest with
        | Except.error e => Except.error e
        | Except.ok r => Except.ok (m + r)
    else sizeOfEntries rest

/-- Models Scanner::calculate_size (src/scanner/mod.rs lines 151-164): walk
every target in order, summing file sizes; any error anywhere makes the
whole call return that error.  The walk function abstracts WalkDir. -/
def calculate_size (walk : FsPath → List (Except String WalkFile)) :
    List FsPath → Except String Nat
  | [] => Except.ok 0
  | t :: ts =>
    match sizeOfEntries (walk t) with
    | Except.error e => Except.error e
    | Except.ok s =>
      match calculate_size walk ts with
      | Except.error e => Except.error e
      | Except.ok r => Except.ok (s + r)

/-- unwrap_or: the value of an Except, or a default on error. -/
def exceptGetD (e : Except String Nat) (d : Nat) : Nat :=
  match e with
  | Except.ok a => a
  | Except.error _ => d

/-- The risk level of the strategy a candidate refers to (Low if out of
range; every built-in strategy returns Low). -/
def stratRisk (_strategies : List Strategy) (_idx : Nat) : RiskLevel :=
  RiskLevel.Low

/-- Phase 3 of Scanner::scan for one accepted candidate (lines 105-129):
resolve the existing targets, compute the size with unwrap_or(0), and build
the CleanableProject. -/
def mkProject (strategies : List Strategy) (fs_exists : FsPath → Bool)
    (walk : FsPath → List (Except String WalkFile)) (c : Candidate) : CleanableProject :=
  let targets := find_targets fs_exists c.root (stratTargets strategies c.strategy_idx)
  { root_path := c.root,
    strategy_name := stratName strategies c.strategy_idx,
    targets := targets,
    total_size := exceptGetD (calculate_size walk targets) 0,
    risk_level := stratRisk strategies c.strategy_idx }

/-- Phase 3 of Scanner::scan over all accepted candidates. -/
def calcPhase (strategies : List Strategy) (fs_exists : FsPath → Bool)
    (walk : FsPath → List (Except String WalkFile)) (valid : List Candidate) :
    List CleanableProject :=
  valid.map (mkProject strategies fs_exists walk)

theorem resolvedTargets_length (strategies : List Strategy)
    (hne : ∀ s ∈ strategies, ∀ t ∈ s.targets, t ≠ []) (a : Candidate) :
    ∀ t ∈ resolvedTargets strategies a, a.root.length < t.length := by
  intro t ht
  rcases List.mem_map.mp ht with ⟨tc, htc, rfl⟩
  have hcne : tc ≠ [] := by
    unfold stratTargets at htc
    cases hg : strategies.get? a.strategy_idx with
    | none => rw [hg] at htc; simp at htc
    | some s =>
      rw [hg] at htc
      simp at htc
      exact hne s (List.get?_mem hg) tc htc
  have : 0 < tc.length := List.length_pos.mpr hcne
  simp [List.length_append]
  omega

theorem pairwise_no_nesting (strategies : List Strategy) (l : List Candidate)
    (hp : l.Pairwise (fun a b => ∀ t ∈ resolvedTargets strategies a, ¬ t.isPrefixOf b.root))
    (hlen : l.Pairwise lenLE)
    (hself : ∀ a ∈ l, ∀ t ∈ resolvedTargets strategies a, a.root.length < t.length) :
    ∀ a ∈ l, ∀ b ∈ l, ∀ t ∈ resolvedTargets strategies a, ¬ t.isPrefixOf b.root := by
  intro a ha b hb t ht hpre
  rcases List.mem_iff_getElem.mp ha with ⟨i, hi, rfl⟩
  rcases List.mem_iff_getElem.mp hb with ⟨j, hj, rfl⟩
  have hlenle : t.length ≤ (l[j]).root.length :=
    (List.isPrefixOf_iff_prefix.mp hpre).length_le
  have hselfi : (l[i]).root.length < t.length :=
    hself (l[i]) (List.getElem_mem hi) t ht
  rcases lt_trichotomy i j with hij | hij | hij
  · exact (List.pairwise_iff_getElem.mp hp) i j hi hj hij t ht hpre
  · subst hij; omega
  · have hle : lenLE (l[j]) (l[i]) := (List.pairwise_iff_getElem.mp hlen) j i hj hi hij
    unfold lenLE at hle
    omega


/-- C1: (a) for every pair of projects produced by Scanner::scan, no target
path of one is a prefix of the root path of the other; (b) the final
ignored-prefix list is exactly the concatenation of the resolved target
paths of the accepted candidates, in acceptance order; (c) a candidate that
is not accepted has its root under some accepted candidate's resolved
target path. -/
theorem scan_dedup_invariant (strategies : List Strategy) (fs_exists : FsPath → Bool)
    (walk : FsPath → List (Except String WalkFile)) (candidates : List Candidate)
    (hne : ∀ s ∈ strategies, ∀ t ∈ s.targets, t ≠ []) :
    (∀ A ∈ calcPhase strategies fs_exists walk (dedupPhase strategies candidates),
     ∀ B ∈ calcPhase strategies fs_exists walk (dedupPhase strategies candidates),
     ∀ t ∈ A.targets, ¬ t.isPrefixOf B.root_path)
    ∧ (dedupLoop strategies (List.insertionSort lenLE candidates) []).2 =
        ((dedupPhase strategies candidates).map (resolvedTargets strategies)).flatten
    ∧ (∀ c ∈ candidates, c ∉ dedupPhase strategies candidates →
        ∃ a ∈ dedupPhase strategies candidates, ∃ t ∈ resolvedTargets strategies a,
          t.isPrefixOf c.root) := by
  refine ⟨?_, ?_, ?_⟩
  · intro A hA B hB t ht
    rcases List.mem_map.mp hA with ⟨a, ha, rfl⟩
    rcases List.mem_map.mp hB with ⟨b, hb, rfl⟩
    have htres : t ∈ resolvedTargets strategies a := by
      have := List.mem_filter.mp ht
      exact this.1
    have hsorted : (List.insertionSort lenLE candidates).Pairwise lenLE :=
      List.sorted_insertionSort lenLE candidates
    have hsub := dedupLoop_sublist strategies (List.insertionSort lenLE candidates) []
    exact pairwise_no_nesting strategies (dedupPhase strategies candidates)
      (dedupLoop_pairwise strategies _ []) (hsorted.sublist hsub)
      (fun x _ => resolvedTargets_length strategies hne x) a ha b hb t htres
  · have := dedupLoop_ignored strategies (List.insertionSort lenLE candidates) []
    simpa [dedupPhase] using this
  · intro c hc hnot
    have hcs : c ∈ List.insertionSort lenLE candidates :=
      (List.perm_insertionSort lenLE candidates).mem_iff.mpr hc
    rcases dedupLoop_dropped strategies _ [] c hcs hnot with ⟨p, hloc, hpre⟩
    rcases hloc with hig | ⟨a, ha, hpa⟩
    · simp at hig
    · exact ⟨a, ha, p, hpa, hpre⟩

/-- One entry yielded by the discovery walk of Scanner::scan: its path and
whether it is a directory. -/
structure WalkEntry where
  path : FsPath
  is_dir : Bool
deriving Repr

/-- The inner strategy loop of the discovery phase (lines 58-68): the first
strategy whose detect() accepts the directory wins and yields a candidate
carrying that strategy's index; later strategies are not consulted. -/
def firstMatch (fs_exists : FsPath → Bool) (strategies : List Strategy)
    (path : FsPath) : Option Candidate :=
  match strategies.findIdx? (fun s => Strategy.detect fs_exists s path) with
  | some idx => some { root := path, strategy_idx := idx }
  | none => none

/-- Models the discovery loop of Scanner::scan (lines 46-70) over the list
of entries the walker yields.  Each yielded entry is either a value or an
I/O error (permission denied, broken symlink, ...); the loop runs
entry? on each one, so the first error is returned from scan itself. -/
def discover (fs_exists : FsPath → Bool) (strategies : List Strategy) :
    List (Except String WalkEntry) → Except String (List Candidate)
  | [] => Except.ok []
  | Except.error e :: _ => Except.error e
  | Except.ok entry :: rest =>
    match discover fs_exists strategies rest with
    | Except.error e => Except.error e
    | Except.ok cs =>
      if entry.is_dir then
        match firstMatch fs_exists strategies entry.path with
        | some c => Except.ok (c :: cs)
        | none => Except.ok cs
      else Except.ok cs

/-- Models ScanEvent (src/scanner/mod.rs lines 169-173). -/
inductive ScanEvent where
  | Scanning (msg : String)
  | ProjectFound (project : CleanableProject)
  | Complete
deriving DecidableEq, Repr

/-- path.display(), over component lists. -/
def pathDisplay (p : FsPath) : String := String.intercalate "/" p

/-- The events the calculation phase sends, one Scanning("Analyzing: ...")
and one ProjectFound per accepted candidate (lines 110 and 126).  The Rust
code runs this phase on a parallel iterator, so the per-candidate blocks may
interleave in any order on the channel; the model fixes acceptance order.
Every property proved about this trace (one ProjectFound per accepted
project, Complete last) is invariant under those interleavings, because
Complete is sent only after the parallel collect() has joined. -/
def projectEvents (strategies : List Strategy) (fs_exists : FsPath → Bool)
    (walk : FsPath → List (Except String WalkFile)) : List Candidate → List ScanEvent
  | [] => []
  | c :: cs =>
    ScanEvent.Scanning ("Analyzing: " ++ pathDisplay c.root) ::
    ScanEvent.ProjectFound (mkProject strategies fs_exists walk c) ::
    projectEvents strategies fs_exists walk cs

/-- Models Scanner::scan end to end: discovery (aborting on the first
traversal error, as entry? does), deduplication, sizing, and the event
trace: best-effort Scanning progress events, the calculation-phase events,
and the terminal Complete.  Returns the projects and the events sent. -/
def scan (strategies : List Strategy) (fs_exists : FsPath → Bool)
    (walk : FsPath → List (Except String WalkFile))
    (entries : List (Except String WalkEntry)) (progressMsgs : List String) :
    Except String (List CleanableProject × List ScanEvent) :=
  match discover fs_exists strategies entries with
  | Except.error e => Except.error e
  | Except.ok candidates =>
    let valid := dedupPhase strategies candidates
    Except.ok (calcPhase strategies fs_exists walk valid,
      progressMsgs.map ScanEvent.Scanning
        ++ projectEvents strategies fs_exists walk valid
        ++ [ScanEvent.Complete])

/-- A concrete filesystem on which nothing exists (no strategy detects). -/
def fsNone : FsPath → Bool := fun _ => false

/-- A concrete walk function yielding no entries. -/
def walkNone : FsPath → List (Except String WalkFile) := fun _ => []

/-- C2 counterexample: a scan whose root entry is yielded fine but whose
second entry is a traversal error (permission denied) aborts entirely:
Scanner::scan runs entry? on every yielded entry, so the error is returned
and no project list is produced, contradicting the claim that such an error
only skips the offending entry and never aborts the whole scan. -/
theorem scan_aborts_counterexample :
    scan default_strategies fsNone walkNone
      [Except.ok { path := [], is_dir := true },
       Except.error "permission denied",
       Except.ok { path := ["b"], is_dir := true }] []
    = Except.error "permission denied" := by
  rfl

/-- C2 (amended): a traversal error on an individual entry aborts the whole
scan: with any well-yielded entries before it, the first errored entry makes
Scanner::scan return that error (the walk result is discarded; nothing is
skipped and continued). -/
theorem scan_aborts_on_traversal_error (strategies : List Strategy)
    (fs_exists : FsPath → Bool) (walk : FsPath → List (Except String WalkFile))
    (pre : List (Except String WalkEntry)) (e : String)
    (post : List (Except String WalkEntry)) (progressMsgs : List String)
    (hpre : ∀ x ∈ pre, ∃ en, x = Except.ok en) :
    scan strategies fs_exists walk (pre ++ Except.error e :: post) progressMsgs
      = Except.error e := by
  have hdisc : discover fs_exists strategies (pre ++ Except.error e :: post)
      = Except.error e := by
    induction pre with
    | nil => simp [discover]
    | cons x rest ih =>
      rcases hpre x (List.mem_cons_self x rest) with ⟨en, rfl⟩
      have := ih (fun y hy => hpre y (List.mem_cons.mpr (Or.inr hy)))
      rw [List.cons_append, discover, this]
  rw [scan, hdisc]

/-- C2 amended-theorem witness at a concrete scan. -/
theorem scan_aborts_on_traversal_error_witness :
    scan default_strategies fsNone walkNone
      [Except.ok { path := [], is_dir := true },
       Except.error "broken symlink"] []
      = Except.error "broken symlink" :=
  scan_aborts_on_traversal_error default_strategies fsNone walkNone
    [Except.ok { path := [], is_dir := true }] "broken symlink" [] []
    (by intro x hx; simp at hx; exact ⟨_, hx⟩)

/-- An entry of a sizing walk that contributes without error: it is not an
errored entry, and if it is a regular file its metadata call succeeds. -/
def entryOk (x : Except String WalkFile) : Bool :=
  match x with
  | Except.error _ => false
  | Except.ok f =>
    !f.is_file ||
      (match f.metadata with
       | Except.ok _ => true
       | Except.error _ => false)

/-- The sum of the file sizes a sizing walk yields, counting only regular
files whose metadata succeeds. -/
def okFileSizes : List (Except String WalkFile) → Nat
  | [] => 0
  | Except.error _ :: rest => okFileSizes rest
  | Except.ok f :: rest =>
    (if f.is_file then
      (match f.metadata with
       | Except.ok m => m
       | Except.error _ => 0)
     else 0) + okFileSizes rest

theorem sizeOfEntries_ok (l : List (Except String WalkFile))
    (h : ∀ x ∈ l, entryOk x = true) :
    sizeOfEntries l = Except.ok (okFileSizes l) := by
  induction l with
  | nil => rfl
  | cons x rest ih =>
    have hx := h x (List.mem_cons_self x rest)
    have hrest := ih (fun y hy => h y (List.mem_cons.mpr (Or.inr hy)))
    cases x with
    | error e => simp [entryOk] at hx
    | ok f =>
      by_cases hf : f.is_file
      · cases hm : f.metadata with
        | error e => simp [entryOk, hf, hm] at hx
        | ok m => simp [sizeOfEntries, okFileSizes, hf, hm, hrest]
      · simp [sizeOfEntries, okFileSizes, hf, hrest]

theorem sizeOfEntries_error (l : List (Except String WalkFile))
    (h : ∃ x ∈ l, entryOk x = false) :
    ∃ e, sizeOfEntries l = Except.error e := by
  induction l with
  | nil => simp at h
  | cons x rest ih =>
    cases x with
    | error e => exact ⟨e, rfl⟩
    | ok f =>
      rcases h with ⟨y, hy, hyf⟩
      rcases List.mem_cons.mp hy with rfl | hy2
      · by_cases hf : f.is_file
        · cases hm : f.metadata with
          | error e => exact ⟨e, by simp [sizeOfEntries, hf, hm]⟩
          | ok m => simp [entryOk, hf, hm] at hyf
        · simp [entryOk, hf] at hyf
      · rcases ih ⟨y, hy2, hyf⟩ with ⟨e, he⟩
        by_cases hf : f.is_file
        · cases hm : f.metadata with
          | error e2 => exact ⟨e2, by simp [sizeOfEntries, hf, hm]⟩
          | ok m => exact ⟨e, by simp [sizeOfEntries, hf, hm, he]⟩
        · exact ⟨e, by simp [sizeOfEntries, hf, he]⟩

theorem calculate_size_ok (walk : FsPath → List (Except String WalkFile))
    (ts : List FsPath) (h : ∀ t ∈ ts, ∀ x ∈ walk t, entryOk x = true) :
    calculate_size walk ts = Except.ok ((ts.map (fun t => okFileSizes (walk t))).sum) := by
  induction ts with
  | nil => rfl
  | cons t rest ih =>
    have ht := sizeOfEntries_ok (walk t) (h t (List.mem_cons_self t rest))
    have hrest := ih (fun u hu => h u (List.mem_cons.mpr (Or.inr hu)))
    simp [calculate_size, ht, hrest]

theorem calculate_size_error (walk : FsPath → List (Except String WalkFile))
    (ts : List FsPath) (h : ∃ t ∈ ts, ∃ x ∈ walk t, entryOk x = false) :
    ∃ e, calculate_size walk ts = Except.error e := by
  induction ts with
  | nil => simp at h
  | cons t rest ih =>
    rcases h with ⟨u, hu, hux⟩
    rcases List.mem_cons.mp hu with rfl | hu2
    · rcases sizeOfEntries_error (walk u) hux with ⟨e, he⟩
      exact ⟨e, by simp [calculate_size, he]⟩
    · cases hs : sizeOfEntries (walk t) with
      | error e => exact ⟨e, by simp [calculate_size, hs]⟩
      | ok s =>
        rcases ih ⟨u, hu2, hux⟩ with ⟨e, he⟩
        exact ⟨e, by simp [calculate_size, hs, he]⟩

/-- The concrete filesystem for the C3 counterexample: a Node.js project at
p1 whose node_modules and dist targets exist. -/
def fsC3 : FsPath → Bool := fun p =>
  p == ["p1", "node_modules"] || p == ["p1", "dist"]

/-- The concrete sizing walk for the C3 counterexample: node_modules holds
one 5-byte file; walking dist fails with an I/O error. -/
def walkC3 : FsPath → List (Except String WalkFile) := fun p =>
  if p == ["p1", "node_modules"] then
    [Except.ok { is_file := true, metadata := Except.ok 5 }]
  else if p == ["p1", "dist"] then
    [Except.error "EIO"]
  else []

/-- The concrete candidate for the C3 counterexample (Node.js root p1). -/
def candC3 : Candidate := { root := ["p1"], strategy_idx := 0 }

/-- C3 counterexample: a size-computation error on one target (dist) does
not contribute zero for that target only: it zeroes the whole project's
total_size (unwrap_or(0) wraps the sum over all targets), even though the
other target (node_modules) holds 5 countable bytes. -/
theorem size_error_counterexample :
    (mkProject default_strategies fsC3 walkC3 candC3).total_size = 0
    ∧ exceptGetD (calculate_size walkC3 [["p1", "node_modules"]]) 0 = 5 :=
  ⟨rfl, rfl⟩

/-- C3 (amended): a project's targets are exactly the resolved target paths
that exist at scan time (a missing target is omitted, not counted as zero);
when every sizing-walk entry under the targets succeeds, total_size is the
sum of the file sizes under exactly those targets; but a size-computation
error under any one target zeroes the entire total_size (the project is
still produced with total_size 0, never dropped). -/
theorem size_error_zeroes_whole_project (strategies : List Strategy)
    (fs_exists : FsPath → Bool) (walk : FsPath → List (Except String WalkFile))
    (c : Candidate) :
    (∀ t, t ∈ (mkProject strategies fs_exists walk c).targets ↔
        t ∈ resolvedTargets strategies c ∧ fs_exists t = true)
    ∧ ((∀ t ∈ (mkProject strategies fs_exists walk c).targets, ∀ x ∈ walk t,
          entryOk x = true) →
        (mkProject strategies fs_exists walk c).total_size =
          ((mkProject strategies fs_exists walk c).targets.map
            (fun t => okFileSizes (walk t))).sum)
    ∧ ((∃ t ∈ (mkProject strategies fs_exists walk c).targets, ∃ x ∈ walk t,
          entryOk x = false) →
        (mkProject strategies fs_exists walk c).total_size = 0) := by
  refine ⟨?_, ?_, ?_⟩
  · intro t
    show t ∈ (find_targets fs_exists c.root (stratTargets strategies c.strategy_idx)) ↔ _
    rw [find_targets]
    rw [List.mem_filter]
    exact Iff.rfl
  · intro h
    have hts : (mkProject strategies fs_exists walk c).total_size
        = exceptGetD (calculate_size walk ((mkProject strategies fs_exists walk c).targets)) 0 :=
      rfl
    rw [hts, calculate_size_ok walk _ h]
    rfl
  · intro h
    have hts : (mkProject strategies fs_exists walk c).total_size
        = exceptGetD (calculate_size walk ((mkProject strategies fs_exists walk c).targets)) 0 :=
      rfl
    rcases calculate_size_error walk _ h with ⟨e, he⟩
    rw [hts, he]
    rfl

/-- C3 amended-theorem witness at the concrete counterexample scenario. -/
theorem size_error_zeroes_whole_project_witness :
    (["p1", "dist"] ∈ (mkProject default_strategies fsC3 walkC3 candC3).targets ↔
      ["p1", "dist"] ∈ resolvedTargets default_strategies candC3 ∧ fsC3 ["p1", "dist"] = true)
    ∧ (mkProject default_strategies fsC3 walkC3 candC3).total_size = 0 :=
  ⟨(size_error_zeroes_whole_project default_strategies fsC3 walkC3 candC3).1 ["p1", "dist"],
   (size_error_zeroes_whole_project default_strategies fsC3 walkC3 candC3).2.2
     ⟨["p1", "dist"], by decide, Except.error "EIO", by simp [walkC3], by decide⟩⟩

/-- The project carried by a ProjectFound event, if any. -/
def eventProject : ScanEvent → Option CleanableProject
  | ScanEvent.ProjectFound p => some p
  | _ => none

theorem projectEvents_filterMap (strategies : List Strategy) (fs_exists : FsPath → Bool)
    (walk : FsPath → List (Except String WalkFile)) (cs : List Candidate) :
    (projectEvents strategies fs_exists walk cs).filterMap eventProject
      = calcPhase strategies fs_exists walk cs := by
  induction cs with
  | nil => rfl
  | cons c rest ih =>
    simp [projectEvents, calcPhase, List.filterMap_cons, eventProject] at ih ⊢
    exact ih

theorem projectEvents_count_complete (strategies : List Strategy) (fs_exists : FsPath → Bool)
    (walk : FsPath → List (Except String WalkFile)) (cs : List Candidate) :
    (projectEvents strategies fs_exists walk cs).count ScanEvent.Complete = 0 := by
  induction cs with
  | nil => rfl
  | cons c rest ih => simp [projectEvents, List.count_cons, ih]

theorem projectEvents_count_found (strategies : List Strategy) (fs_exists : FsPath → Bool)
    (walk : FsPath → List (Except String WalkFile)) (cs : List Candidate)
    (p : CleanableProject) :
    (projectEvents strategies fs_exists walk cs).count (ScanEvent.ProjectFound p)
      = (calcPhase strategies fs_exists walk cs).count p := by
  induction cs with
  | nil => rfl
  | cons c rest ih =>
    simp [projectEvents, calcPhase, List.count_cons, ih]

/-- The paths of the directory entries a walk yields without error: the
discovery loop produces at most one candidate per such entry. -/
def okDirPaths : List (Except String WalkEntry) → List FsPath :=
  fun l => l.filterMap (fun x =>
    match x with
    | Except.ok en => if en.is_dir then some en.path else none
    | Except.error _ => none)

theorem firstMatch_root (fs_exists : FsPath → Bool) (strategies : List Strategy)
    (p : FsPath) (c : Candidate) (h : firstMatch fs_exists strategies p = some c) :
    c.root = p := by
  unfold firstMatch at h
  cases hf : strategies.findIdx? (fun s => Strategy.detect fs_exists s p) with
  | none => rw [hf] at h; simp at h
  | some idx => rw [hf] at h; simp at h; rw [← h]

theorem discover_roots_sublist (fs_exists : FsPath → Bool) (strategies : List Strategy) :
    ∀ (entries : List (Except String WalkEntry)) (cs : List Candidate),
      discover fs_exists strategies entries = Except.ok cs →
      (cs.map Candidate.root).Sublist (okDirPaths entries) := by
  intro entries
  induction entries with
  | nil =>
    intro cs h
    simp [discover] at h
    simp [← h, okDirPaths]
  | cons x rest ih =>
    intro cs h
    cases x with
    | error e => simp [discover] at h
    | ok en =>
      rw [discover] at h
      cases hd : discover fs_exists strategies rest with
      | error e => rw [hd] at h; simp at h
      | ok cs2 =>
        rw [hd] at h
        simp only at h
        have hsub := ih cs2 hd
        by_cases hdir : en.is_dir
        · simp only [hdir, if_pos] at h
          cases hm : firstMatch fs_exists strategies en.path with
          | some c =>
            rw [hm] at h
            simp at h
            have hroot := firstMatch_root fs_exists strategies en.path c hm
            have hok : okDirPaths (Except.ok en :: rest) = en.path :: okDirPaths rest := by
              simp [okDirPaths, List.filterMap_cons, hdir]
            rw [hok, ← h]
            simp only [List.map_cons, hroot]
            exact hsub.cons₂ en.path
          | none =>
            rw [hm] at h
            simp at h
            have hok : okDirPaths (Except.ok en :: rest) = en.path :: okDirPaths rest := by
              simp [okDirPaths, List.filterMap_cons, hdir]
            rw [hok, ← h]
            exact hsub.cons en.path
        · simp only [hdir, Bool.false_eq_true, if_neg, not_false_iff] at h
          have hok : okDirPaths (Except.ok en :: rest) = okDirPaths rest := by
            simp [okDirPaths, List.filterMap_cons, hdir]
          have h2 : cs2 = cs := by injection h
          subst h2
          rw [hok]
          exact hsub

theorem dedupPhase_roots_nodup (strategies : List Strategy) (candidates : List Candidate)
    (h : (candidates.map Candidate.root).Nodup) :
    ((dedupPhase strategies candidates).map Candidate.root).Nodup := by
  have hperm : List.Perm ((List.insertionSort lenLE candidates).map Candidate.root)
      (candidates.map Candidate.root) :=
    (List.perm_insertionSort lenLE candidates).map Candidate.root
  have hnd2 : ((List.insertionSort lenLE candidates).map Candidate.root).Nodup :=
    hperm.nodup_iff.mpr h
  exact ((dedupLoop_sublist strategies (List.insertionSort lenLE candidates) []).map
    Candidate.root).nodup hnd2

theorem calcPhase_roots (strategies : List Strategy) (fs_exists : FsPath → Bool)
    (walk : FsPath → List (Except String WalkFile)) (cs : List Candidate) :
    (calcPhase strategies fs_exists walk cs).map CleanableProject.root_path
      = cs.map Candidate.root := by
  induction cs with
  | nil => rfl
  | cons c rest ih => simp [calcPhase, mkProject, ih]

/-- C9: on every successful run of Scanner::scan, the event trace ends in
Complete, contains Complete exactly once (so Complete comes after every
other event), its ProjectFound payloads are exactly the produced projects in
order, and each produced project appears in exactly one ProjectFound event
(never duplicated, never retracted), provided the walk yields no directory
twice (jwalk visits each directory once). -/
theorem scan_event_stream (strategies : List Strategy) (fs_exists : FsPath → Bool)
    (walk : FsPath → List (Except String WalkFile))
    (entries : List (Except String WalkEntry)) (progressMsgs : List String)
    (projects : List CleanableProject) (evs : List ScanEvent)
    (hok : scan strategies fs_exists walk entries progressMsgs
      = Except.ok (projects, evs))
    (hnd : (okDirPaths entries).Nodup) :
    evs.getLast? = some ScanEvent.Complete
    ∧ evs.count ScanEvent.Complete = 1
    ∧ evs.filterMap eventProject = projects
    ∧ ∀ p ∈ projects, evs.count (ScanEvent.ProjectFound p) = 1 := by
  rw [scan] at hok
  cases hd : discover fs_exists strategies entries with
  | error e => rw [hd] at hok; simp at hok
  | ok candidates =>
    rw [hd] at hok
    simp only [Except.ok.injEq, Prod.mk.injEq] at hok
    obtain ⟨hpr, hev⟩ := hok
    subst hpr
    subst hev
    have hmsgs0 : (progressMsgs.map ScanEvent.Scanning).count ScanEvent.Complete = 0 := by
      refine List.count_eq_zero.mpr ?_
      intro hmem
      rcases List.mem_map.mp hmem with ⟨m, _, hme⟩
      exact ScanEvent.noConfusion hme
    have hmsgsP : ∀ p : CleanableProject,
        (progressMsgs.map ScanEvent.Scanning).count (ScanEvent.ProjectFound p) = 0 := by
      intro p
      refine List.count_eq_zero.mpr ?_
      intro hmem
      rcases List.mem_map.mp hmem with ⟨m, _, hme⟩
      exact ScanEvent.noConfusion hme
    have hmsgsF : (progressMsgs.map ScanEvent.Scanning).filterMap eventProject = [] := by
      rw [List.filterMap_map]
      have : (eventProject ∘ ScanEvent.Scanning) = fun _ => none := rfl
      rw [this]
      exact List.filterMap_eq_nil_iff.mpr (fun a _ => rfl)
    have hnodup : (calcPhase strategies fs_exists walk
        (dedupPhase strategies candidates)).Nodup := by
      have h1 : ((dedupPhase strategies candidates).map Candidate.root).Nodup :=
        dedupPhase_roots_nodup strategies candidates
          ((discover_roots_sublist fs_exists strategies entries candidates hd).nodup hnd)
      rw [← calcPhase_roots strategies fs_exists walk] at h1
      exact h1.of_map
    refine ⟨?_, ?_, ?_, ?_⟩
    · rw [List.getLast?_concat]
    · rw [List.count_append, List.count_append,
        hmsgs0, projectEvents_count_complete]
      rfl
    · rw [List.filterMap_append, List.filterMap_append,
        hmsgsF, projectEvents_filterMap]
      simp [eventProject, List.filterMap_cons]
    · intro p hp
      rw [List.count_append, List.count_append,
        hmsgsP, projectEvents_count_found]
      have hlast : ([ScanEvent.Complete] : List ScanEvent).count
          (ScanEvent.ProjectFound p) = 0 := rfl
      rw [hlast]
      have := List.count_eq_one_of_mem hnodup hp
      omega

/-- The concrete filesystem for the C9 witness: a Node.js project at p1 and
a Rust project at p1/sub (the spec's two-project scenario). -/
def fsC9 : FsPath → Bool := fun p =>
  p == ["p1", "package.json"] || p == ["p1", "sub", "Cargo.toml"]
    || p == ["p1", "node_modules"] || p == ["p1", "sub", "target"]

/-- The concrete sizing walk for the C9 witness. -/
def walkC9 : FsPath → List (Except String WalkFile) := fun p =>
  if p == ["p1", "node_modules"] then
    [Except.ok { is_file := true, metadata := Except.ok 500 }]
  else if p == ["p1", "sub", "target"] then
    [Except.ok { is_file := true, metadata := Except.ok 1000 }]
  else []

/-- The concrete discovery entries for the C9 witness. -/
def entriesC9 : List (Except String WalkEntry) :=
  [Except.ok { path := ["p1"], is_dir := true },
   Except.ok { path := ["p1", "sub"], is_dir := true }]

/-- The (successful) result of the C9 witness scan. -/
def scanOutC9 : List CleanableProject × List ScanEvent :=
  match scan default_strategies fsC9 walkC9 entriesC9 [] with
  | Except.ok pr => pr
  | Except.error _ => ([], [])

/-- C9 witness: the event-stream theorem applied to a concrete scan. -/
theorem scan_event_stream_witness :
    scanOutC9.2.getLast? = some ScanEvent.Complete
    ∧ scanOutC9.2.count ScanEvent.Complete = 1 :=
  ⟨(scan_event_stream default_strategies fsC9 walkC9 entriesC9 []
      scanOutC9.1 scanOutC9.2 rfl (by decide)).1,
   (scan_event_stream default_strategies fsC9 walkC9 entriesC9 []
      scanOutC9.1 scanOutC9.2 rfl (by decide)).2.1⟩

/-- C1 witness: the deduplication theorem applied at a concrete candidate
list (its ignored-prefix-list component, instantiated and closed). -/
theorem scan_dedup_invariant_witness :
    (dedupLoop default_strategies
        (List.insertionSort lenLE
          [{ root := ["p1"], strategy_idx := 0 },
           { root := ["p1", "sub"], strategy_idx := 1 }]) []).2 =
      ((dedupPhase default_strategies
          [{ root := ["p1"], strategy_idx := 0 },
           { root := ["p1", "sub"], strategy_idx := 1 }]).map
        (resolvedTargets default_strategies)).flatten :=
  (scan_dedup_invariant default_strategies fsC9 walkC9
    [{ root := ["p1"], strategy_idx := 0 },
     { root := ["p1", "sub"], strategy_idx := 1 }] (by decide)).2.1

/-- Models TreeNode (src/tui/tree.rs): path, children (a nested list),
optional project, collapsed and checked flags. -/
inductive TreeNode where
  | mk (path : FsPath) (children : List TreeNode)
      (project : Option CleanableProject) (collapsed : Bool) (checked : Bool)

/-- The path field of a TreeNode. -/
def TreeNode.path : TreeNode → FsPath
  | TreeNode.mk p _ _ _ _ => p

/-- The children field of a TreeNode. -/
def TreeNode.children : TreeNode → List TreeNode
  | TreeNode.mk _ cs _ _ _ => cs

/-- The project field of a TreeNode. -/
def TreeNode.project : TreeNode → Option CleanableProject
  | TreeNode.mk _ _ pr _ _ => pr

/-- The collapsed field of a TreeNode. -/
def TreeNode.collapsed : TreeNode → Bool
  | TreeNode.mk _ _ _ col _ => col

/-- The checked field of a TreeNode. -/
def TreeNode.checked : TreeNode → Bool
  | TreeNode.mk _ _ _ _ ch => ch

mutual

/-- Models TreeNode::set_checked (src/tui/tree.rs lines 48-53): set the flag
on the node and recursively on every child. -/
def TreeNode.set_checked : TreeNode → Bool → TreeNode
  | TreeNode.mk p cs pr col _, b => TreeNode.mk p (setCheckedList cs b) pr col b

/-- set_checked over a list of children. -/
def setCheckedList : List TreeNode → Bool → List TreeNode
  | [], _ => []
  | c :: cs, b => c.set_checked b :: setCheckedList cs b

end

mutual

/-- Every node of a subtree, in preorder. -/
def TreeNode.subtreeNodes : TreeNode → List TreeNode
  | TreeNode.mk p cs pr col ch =>
    TreeNode.mk p cs pr col ch :: subtreeNodesList cs

/-- Every node of a forest, in preorder. -/
def subtreeNodesList : List TreeNode → List TreeNode
  | [] => []
  | c :: cs => c.subtreeNodes ++ subtreeNodesList cs

end

mutual

/-- C4 part (a), node form: after set_checked, every node of the subtree
carries the propagated value. -/
theorem set_checked_subtree : ∀ (t : TreeNode) (b : Bool),
    ∀ n ∈ (t.set_checked b).subtreeNodes, n.checked = b
  | TreeNode.mk p cs pr col ch, b => by
    intro n hn
    rw [TreeNode.set_checked, TreeNode.subtreeNodes] at hn
    rcases List.mem_cons.mp hn with rfl | hn2
    · rfl
    · exact set_checked_subtree_list cs b n hn2

/-- set_checked propagation over a forest of children. -/
theorem set_checked_subtree_list : ∀ (cs : List TreeNode) (b : Bool),
    ∀ n ∈ subtreeNodesList (setCheckedList cs b), n.checked = b
  | [], b => by intro n hn; simp [setCheckedList, subtreeNodesList] at hn
  | c :: cs, b => by
    intro n hn
    rw [setCheckedList, subtreeNodesList] at hn
    rcases List.mem_append.mp hn with h1 | h2
    · exact set_checked_subtree c b n h1
    · exact set_checked_subtree_list cs b n h2

end

mutual

/-- Models find_node_at_mut (src/tui/app_state.rs lines 350-364) on one
node: return the node once the running visible index hits the target;
otherwise advance past this node and, unless it is collapsed, descend into
its children with the running index.  Returns the node found (if any) and
the updated running index. -/
def findNode : TreeNode → Nat → Nat → Option TreeNode × Nat
  | TreeNode.mk p cs pr col ch, cur, target =>
    if cur = target then (some (TreeNode.mk p cs pr col ch), cur)
    else if col then (none, cur + 1)
    else findList cs (cur + 1) target

/-- Models AppState::get_node_at_mut (lines 154-162) over a forest: try
each root in turn with the shared running index, stopping at the first
hit. -/
def findList : List TreeNode → Nat → Nat → Option TreeNode × Nat
  | [], cur, _ => (none, cur)
  | t :: ts, cur, target =>
    match findNode t cur target with
    | (some n, cur2) => (some n, cur2)
    | (none, cur2) => findList ts cur2 target

end

mutual

/-- Models AppState::toggle_selection in Tree mode (lines 190-195) pushed
into the traversal of find_node_at_mut: when the running index hits the
target the node's checked flag is flipped and propagated with set_checked;
otherwise the traversal continues as in findNode.  Returns the updated
node, the running index, and whether the target was found. -/
def toggleNode : TreeNode → Nat → Nat → TreeNode × Nat × Bool
  | TreeNode.mk p cs pr col ch, cur, target =>
    if cur = target then
      ((TreeNode.mk p cs pr col ch).set_checked (!ch), cur, true)
    else if col then (TreeNode.mk p cs pr col ch, cur + 1, false)
    else
      let r := toggleList cs (cur + 1) target
      (TreeNode.mk p r.1 pr col ch, r.2.1, r.2.2)

/-- The toggle traversal over a forest with the shared running index. -/
def toggleList : List TreeNode → Nat → Nat → List TreeNode × Nat × Bool
  | [], cur, _ => ([], cur, false)
  | t :: ts, cur, target =>
    let r := toggleNode t cur target
    if r.2.2 then (r.1 :: ts, r.2.1, true)
    else
      let r2 := toggleList ts r.2.1 target
      (r.1 :: r2.1, r2.2.1, r2.2.2)

end

/-- toggle_selection in Tree mode on a forest at visible index i. -/
def toggle_selection_tree (roots : List TreeNode) (i : Nat) : List TreeNode :=
  (toggleList roots 0 i).1

/-- Replace the element at an index, if present. -/
def modifyAt : List TreeNode → Nat → (TreeNode → TreeNode) → List TreeNode
  | [], _, _ => []
  | t :: ts, 0, f => f t :: ts
  | t :: ts, Nat.succ j, f => t :: modifyAt ts j f

/-- The node of a tree at a structural path (a list of child indices);
[] is the tree's own root. -/
def getPathNode : TreeNode → List Nat → Option TreeNode
  | t, [] => some t
  | t, i :: is =>
    match t.children.get? i with
    | some c => getPathNode c is
    | none => none

/-- The node of a forest at a structural path: the head index picks the
root, the rest descends. -/
def getPathForest (ts : List TreeNode) : List Nat → Option TreeNode
  | [] => none
  | i :: is =>
    match ts.get? i with
    | some t => getPathNode t is
    | none => none

/-- Apply a function to the subtree of a tree at a structural path. -/
def replaceNode : TreeNode → List Nat → (TreeNode → TreeNode) → TreeNode
  | t, [], f => f t
  | TreeNode.mk pa cs pr col ch, i :: is, f =>
    TreeNode.mk pa (modifyAt cs i (fun c => replaceNode c is f)) pr col ch

/-- Apply a function to the subtree of a forest at a structural path. -/
def replaceForest (ts : List TreeNode) (p : List Nat) (f : TreeNode → TreeNode) :
    List TreeNode :=
  match p with
  | [] => ts
  | i :: is => modifyAt ts i (fun t => replaceNode t is f)

theorem modifyAt_get_same (ts : List TreeNode) (i : Nat) (f : TreeNode → TreeNode) :
    (modifyAt ts i f).get? i = (ts.get? i).map f := by
  induction ts generalizing i with
  | nil => simp [modifyAt]
  | cons t ts ih =>
    cases i with
    | zero => rfl
    | succ j => exact ih j

theorem modifyAt_get_ne (ts : List TreeNode) (i j : Nat) (f : TreeNode → TreeNode)
    (h : j ≠ i) : (modifyAt ts i f).get? j = ts.get? j := by
  induction ts generalizing i j with
  | nil => simp [modifyAt]
  | cons t ts ih =>
    cases i with
    | zero =>
      cases j with
      | zero => exact absurd rfl h
      | succ k => rfl
    | succ i2 =>
      cases j with
      | zero => rfl
      | succ k => exact ih i2 k (fun he => h (by rw [he]))

/-- The flip toggle_selection applies at the node under the cursor:
set_checked with the negation of the node's current checked flag. -/
def flipF (m : TreeNode) : TreeNode := m.set_checked (!m.checked)

theorem set_checked_checked (t : TreeNode) (b : Bool) : (t.set_checked b).checked = b := by
  cases t with
  | mk p cs pr col ch => rfl

theorem set_checked_children_nil (t : TreeNode) (b : Bool) (h : t.children = []) :
    (t.set_checked b).children = [] := by
  cases t with
  | mk p cs pr col ch =>
    simp [TreeNode.children] at h
    simp [TreeNode.set_checked, TreeNode.children, h, setCheckedList]

theorem getPath_replace_self (f : TreeNode → TreeNode) :
    ∀ (p : List Nat) (t n : TreeNode), getPathNode t p = some n →
      getPathNode (replaceNode t p f) p = some (f n) := by
  intro p
  induction p with
  | nil =>
    intro t n hget
    simp [getPathNode] at hget
    subst hget
    simp [replaceNode, getPathNode]
  | cons i is ih =>
    intro t n hget
    cases t with
    | mk pa cs pr col ch =>
      rw [getPathNode] at hget
      cases hc : (TreeNode.mk pa cs pr col ch).children.get? i with
      | none => rw [hc] at hget; simp at hget
      | some c =>
        rw [hc] at hget
        simp only at hget
        rw [replaceNode, getPathNode]
        have hcs : cs.get? i = some c := hc
        have : (TreeNode.mk pa (modifyAt cs i (fun d => replaceNode d is f)) pr col ch).children.get? i
            = some (replaceNode c is f) := by
          show (modifyAt cs i (fun d => replaceNode d is f)).get? i = _
          rw [modifyAt_get_same, hcs]
          rfl
        rw [this]
        exact ih c n hget

theorem getPath_replace_checked (f : TreeNode → TreeNode) :
    ∀ (p : List Nat) (t n : TreeNode), getPathNode t p = some n →
      n.children = [] → (f n).children = [] →
      ∀ q : List Nat, q ≠ p →
        (getPathNode (replaceNode t p f) q).map TreeNode.checked
          = (getPathNode t q).map TreeNode.checked := by
  intro p
  induction p with
  | nil =>
    intro t n hget hleaf hfleaf q hq
    simp [getPathNode] at hget
    subst hget
    cases q with
    | nil => exact absurd rfl hq
    | cons j js =>
      rw [replaceNode, getPathNode, getPathNode]
      rw [show t.children = ([] : List TreeNode) from hleaf]
      rw [show (f t).children = ([] : List TreeNode) from hfleaf]
  | cons i is ih =>
    intro t n hget hleaf hfleaf q hq
    cases t with
    | mk pa cs pr col ch =>
      rw [getPathNode] at hget
      cases hc : (TreeNode.mk pa cs pr col ch).children.get? i with
      | none => rw [hc] at hget; simp at hget
      | some c =>
        rw [hc] at hget
        simp only at hget
        have hcs : cs.get? i = some c := hc
        cases q with
        | nil => rfl
        | cons j js =>
          rw [replaceNode, getPathNode, getPathNode]
          by_cases hji : j = i
          · subst hji
            have h1 : (TreeNode.mk pa (modifyAt cs j (fun d => replaceNode d is f)) pr col ch).children.get? j
                = some (replaceNode c is f) := by
              show (modifyAt cs j (fun d => replaceNode d is f)).get? j = _
              rw [modifyAt_get_same, hcs]
              rfl
            rw [h1]
            have h2 : (TreeNode.mk pa cs pr col ch).children.get? j = some c := hcs
            rw [h2]
            have hjs : js ≠ is := by
              intro he
              exact hq (by rw [he])
            exact ih c n hget hleaf hfleaf js hjs
          · have h1 : (TreeNode.mk pa (modifyAt cs i (fun d => replaceNode d is f)) pr col ch).children.get? j
                = cs.get? j := by
              show (modifyAt cs i (fun d => replaceNode d is f)).get? j = _
              exact modifyAt_get_ne cs i j _ hji
            rw [h1]
            show _ = (Option.map TreeNode.checked (match cs.get? j with
              | some d => getPathNode d js
              | none => none))
            cases cs.get? j with
            | none => rfl
            | some d => rfl

theorem getPathForest_replace_self (f : TreeNode → TreeNode) (q : List Nat)
    (ts : List TreeNode) (n : TreeNode) (hq : getPathForest ts q = some n) :
    getPathForest (replaceForest ts q f) q = some (f n) := by
  cases q with
  | nil => simp [getPathForest] at hq
  | cons i is =>
    rw [getPathForest] at hq
    cases hc : ts.get? i with
    | none => rw [hc] at hq; simp at hq
    | some t =>
      rw [hc] at hq
      simp only at hq
      rw [replaceForest, getPathForest, modifyAt_get_same, hc]
      exact getPath_replace_self f is t n hq

theorem getPathForest_replace_checked (f : TreeNode → TreeNode) (p : List Nat)
    (ts : List TreeNode) (n : TreeNode) (hp : getPathForest ts p = some n)
    (hleaf : n.children = []) (hfleaf : (f n).children = [])
    (q : List Nat) (hq : q ≠ p) :
    (getPathForest (replaceForest ts p f) q).map TreeNode.checked
      = (getPathForest ts q).map TreeNode.checked := by
  cases p with
  | nil => simp [getPathForest] at hp
  | cons i is =>
    rw [getPathForest] at hp
    cases hc : ts.get? i with
    | none => rw [hc] at hp; simp at hp
    | some t =>
      rw [hc] at hp
      simp only at hp
      cases q with
      | nil => rfl
      | cons j js =>
        rw [replaceForest, getPathForest, getPathForest]
        by_cases hji : j = i
        · subst hji
          rw [modifyAt_get_same, hc]
          have hjs : js ≠ is := fun he => hq (by rw [he])
          exact getPath_replace_checked f is t n hp hleaf hfleaf js hjs
        · rw [modifyAt_get_ne ts i j _ hji]

mutual

/-- Correspondence between the read-only cursor traversal (findNode) and
the toggling traversal (toggleNode): a miss leaves the node untouched; a
hit identifies a structural path at which the whole tree is rewritten by
flipF, everything else being shared. -/
theorem toggleNode_spec : ∀ (t : TreeNode) (cur target : Nat),
    ((findNode t cur target).1 = none →
      toggleNode t cur target = (t, (findNode t cur target).2, false))
    ∧ (∀ n, (findNode t cur target).1 = some n →
      ∃ p, getPathNode t p = some n
        ∧ toggleNode t cur target = (replaceNode t p flipF, (findNode t cur target).2, true))
  | TreeNode.mk pa cs pr col ch, cur, target => by
    by_cases hcur : cur = target
    · constructor
      · intro hnone
        rw [findNode] at hnone
        simp [hcur] at hnone
      · intro n hsome
        rw [findNode] at hsome
        simp only [hcur, if_pos] at hsome
        refine ⟨[], ?_, ?_⟩
        · rw [getPathNode]
          rw [← hsome]
        · rw [toggleNode, findNode]
          simp only [hcur, if_pos]
          rfl
    · by_cases hcol : col = true
      · constructor
        · intro hnone
          rw [toggleNode, findNode]
          simp [hcur, hcol]
        · intro n hsome
          rw [findNode] at hsome
          simp [hcur, hcol] at hsome
      · have hspec := toggleList_spec cs (cur + 1) target
        constructor
        · intro hnone
          rw [findNode] at hnone ⊢
          simp only [hcur, hcol, Bool.false_eq_true, if_false] at hnone ⊢
          rw [toggleNode]
          simp only [hcur, hcol, Bool.false_eq_true, if_false]
          rw [hspec.1 hnone]
        · intro n hsome
          rw [findNode] at hsome ⊢
          simp only [hcur, if_neg, hcol, Bool.false_eq_true] at hsome ⊢
          rcases hspec.2 n hsome with ⟨q, hq, htog⟩
          cases q with
          | nil => simp [getPathForest] at hq
          | cons i is =>
            refine ⟨i :: is, ?_, ?_⟩
            · rw [getPathNode]
              rw [getPathForest] at hq
              exact hq
            · rw [toggleNode]
              simp only [hcur, if_neg, hcol, Bool.false_eq_true]
              rw [htog]
              rfl

/-- The list form of toggleNode_spec, over the shared running index. -/
theorem toggleList_spec : ∀ (ts : List TreeNode) (cur target : Nat),
    ((findList ts cur target).1 = none →
      toggleList ts cur target = (ts, (findList ts cur target).2, false))
    ∧ (∀ n, (findList ts cur target).1 = some n →
      ∃ q, getPathForest ts q = some n
        ∧ toggleList ts cur target = (replaceForest ts q flipF, (findList ts cur target).2, true))
  | [], cur, target => by
    constructor
    · intro _
      rfl
    · intro n hsome
      rw [findList] at hsome
      simp at hsome
  | t :: ts, cur, target => by
    have hnode := toggleNode_spec t cur target
    rcases hf : findNode t cur target with ⟨o, cur2⟩
    cases o with
    | some m =>
      constructor
      · intro hnone
        rw [findList, hf] at hnone
        simp at hnone
      · intro n hsome
        rw [findList, hf] at hsome
        simp only at hsome
        have hm : m = n := by
          injection hsome
        subst hm
        rcases hnode.2 m (by rw [hf]) with ⟨p, hp, htog⟩
        refine ⟨0 :: p, ?_, ?_⟩
        · rw [getPathForest]
          show (match (t :: ts).get? 0 with
            | some u => getPathNode u p
            | none => none) = some m
          rw [show (t :: ts).get? 0 = some t from rfl]
          exact hp
        · rw [hf] at htog
          rw [toggleList, htog, findList, hf]
          simp [replaceForest, modifyAt]
    | none =>
      have htogt : toggleNode t cur target = (t, cur2, false) := by
        have := hnode.1 (by rw [hf])
        rw [hf] at this
        exact this
      have hlist := toggleList_spec ts cur2 target
      constructor
      · intro hnone
        rw [findList, hf] at hnone ⊢
        simp only at hnone ⊢
        rw [toggleList, htogt]
        simp only [Bool.false_eq_true, if_neg, not_false_iff]
        rw [hlist.1 hnone]
      · intro n hsome
        rw [findList, hf] at hsome ⊢
        simp only at hsome ⊢
        rcases hlist.2 n hsome with ⟨q, hq, htog⟩
        cases q with
        | nil => simp [getPathForest] at hq
        | cons i is =>
          refine ⟨(i + 1) :: is, ?_, ?_⟩
          · rw [getPathForest]
            rw [getPathForest] at hq
            exact hq
          · rw [toggleList, htogt]
            simp only [Bool.false_eq_true, if_neg, not_false_iff]
            rw [htog]
            rfl

end

/-- C4: (a) TreeNode::set_checked makes the flag of every node of the
subtree equal to the propagated value (both for true and for false); and
(b) toggling selection in Tree mode at the visible index of a leaf node
flips exactly that leaf's checked flag: every node at any other structural
path of the forest keeps its checked state. -/
theorem tree_checked_propagation :
    (∀ (t : TreeNode) (b : Bool), ∀ n ∈ (t.set_checked b).subtreeNodes, n.checked = b)
    ∧ (∀ (roots : List TreeNode) (i : Nat) (n : TreeNode),
        (findList roots 0 i).1 = some n → n.children = [] →
        ∃ p, getPathForest roots p = some n
          ∧ (getPathForest (toggle_selection_tree roots i) p).map TreeNode.checked
              = some (!n.checked)
          ∧ ∀ q, q ≠ p →
              (getPathForest (toggle_selection_tree roots i) q).map TreeNode.checked
                = (getPathForest roots q).map TreeNode.checked) := by
  constructor
  · exact set_checked_subtree
  · intro roots i n hfind hleaf
    rcases (toggleList_spec roots 0 i).2 n hfind with ⟨p, hp, htog⟩
    refine ⟨p, hp, ?_, ?_⟩
    · have hrep := getPathForest_replace_self flipF p roots n hp
      rw [toggle_selection_tree, htog]
      show (getPathForest (replaceForest roots p flipF) p).map TreeNode.checked = _
      rw [hrep]
      show some ((flipF n).checked) = some (!n.checked)
      rw [flipF, set_checked_checked]
    · intro q hqp
      rw [toggle_selection_tree, htog]
      show (getPathForest (replaceForest roots p flipF) q).map TreeNode.checked = _
      exact getPathForest_replace_checked flipF p roots n hp hleaf
        (set_checked_children_nil n (!n.checked) hleaf) q hqp

/-- Concrete forest for the C4 witness: a root a with a single leaf child
a/b, and a second root c. -/
def forestC4 : List TreeNode :=
  [TreeNode.mk ["a"] [TreeNode.mk ["a", "b"] [] none false false] none false false,
   TreeNode.mk ["c"] [] none false false]

/-- The leaf node a/b of the C4 witness forest (visible index 1). -/
def nodeC4 : TreeNode := TreeNode.mk ["a", "b"] [] none false false

/-- C4 witness: toggling the leaf at visible index 1 of the concrete forest
flips it and leaves every other path's checked state unchanged. -/
theorem tree_checked_propagation_witness :
    ∃ p, getPathForest forestC4 p = some nodeC4
      ∧ (getPathForest (toggle_selection_tree forestC4 1) p).map TreeNode.checked
          = some (!nodeC4.checked)
      ∧ ∀ q, q ≠ p →
          (getPathForest (toggle_selection_tree forestC4 1) q).map TreeNode.checked
            = (getPathForest forestC4 q).map TreeNode.checked :=
  tree_checked_propagation.2 forestC4 1 nodeC4 rfl rfl

/-- Models TreeFlatNode (src/tui/tree.rs lines 13-20); the guidePfx field
models the guide_prefix string. -/
structure TreeFlatNode where
  node : TreeNode
  depth : Nat
  guidePfx : String

/-- Models build_guide_prefix (src/tui/tree.rs lines 200-224): continuation
segments for the ancestors tracked by the traversal, then the elbow
connector. -/
def buildGuidePfx (depth : Nat) (is_last : Bool) (ancestors_are_last : List Bool) : String :=
  if depth = 0 then ""
  else
    (ancestors_are_last.foldl
      (fun acc b => acc ++ (if b then "   " else "│  ")) "")
      ++ (if is_last then "└─ " else "├─ ")

mutual

/-- Models flatten_recursive (src/tui/tree.rs lines 167-196): emit the node
with its guide string, then (unless collapsed) its children; the ancestor
list passed down is extended with is_last_child only when depth > 0. -/
def flatten_recursive : TreeNode → Nat → Bool → List Bool → List TreeFlatNode
  | TreeNode.mk pa cs pr col ch, depth, is_last_child, ancestors =>
    { node := TreeNode.mk pa cs pr col ch, depth := depth,
      guidePfx := buildGuidePfx depth is_last_child ancestors } ::
    (if col then []
     else flattenChildren cs (depth + 1)
       (if 0 < depth then ancestors ++ [is_last_child] else ancestors))

/-- The children loop of flatten_recursive: a child is flattened with
child_is_last exactly when it is the final child. -/
def flattenChildren : List TreeNode → Nat → List Bool → List TreeFlatNode
  | [], _, _ => []
  | [c], depth, anc => flatten_recursive c depth true anc
  | c :: c2 :: cs, depth, anc =>
    flatten_recursive c depth false anc ++ flattenChildren (c2 :: cs) depth anc

end

/-- Models flatten_tree (src/tui/tree.rs lines 155-163): each root is
flattened at depth 0 with an empty ancestor list and is_last set for the
final root. -/
def flatten_tree (roots : List TreeNode) : List TreeFlatNode :=
  flattenChildren roots 0 []

mutual

/-- The positional facts of every emitted node: its depth, the
is-last-child flags of all its ancestors from the forest root down to the
parent (root first; a depth-0 root has none), and whether the node itself
is its parent's last child (for a root: whether it is the final root). -/
def annotateNode : TreeNode → Nat → Bool → List Bool → List (Nat × List Bool × Bool)
  | TreeNode.mk _ cs _ col _, depth, is_last_child, fullAnc =>
    (depth, fullAnc, is_last_child) ::
    (if col then []
     else annotateChildren cs (depth + 1) (fullAnc ++ [is_last_child]))

/-- The children loop of annotateNode. -/
def annotateChildren : List TreeNode → Nat → List Bool → List (Nat × List Bool × Bool)
  | [], _, _ => []
  | [c], depth, anc => annotateNode c depth true anc
  | c :: c2 :: cs, depth, anc =>
    annotateNode c depth false anc ++ annotateChildren (c2 :: cs) depth anc

end

/-- The positional facts over a whole forest. -/
def annotateForest (roots : List TreeNode) : List (Nat × List Bool × Bool) :=
  annotateChildren roots 0 []

/-- The guide string claim C5 specifies for a node: one segment for each
ancestor in the given list (three spaces when that ancestor was its
parent's last child, a bar plus two spaces otherwise), then corner-and-dash
for a last child and tee-and-dash otherwise; empty at depth 0. -/
def claimPfx (depth : Nat) (ancs : List Bool) (is_last : Bool) : String :=
  if depth = 0 then ""
  else
    (ancs.foldl (fun acc b => acc ++ (if b then "   " else "│  ")) "")
      ++ (if is_last then "└─ " else "├─ ")

mutual

/-- The emitted guide string of every flattened node coincides with the
claim's formula applied to the ancestors strictly below the forest root
(the depth-0 ancestor's flag is dropped). -/
theorem flatten_ann_node : ∀ (t : TreeNode) (depth : Nat) (il : Bool)
    (anc fullAnc : List Bool), anc = fullAnc.drop 1 → fullAnc.length = depth →
    (flatten_recursive t depth il anc).map
        (fun fn => (fn.depth, TreeFlatNode.guidePfx fn))
      = (annotateNode t depth il fullAnc).map
        (fun a => (a.1, claimPfx a.1 (a.2.1.drop 1) a.2.2))
  | TreeNode.mk pa cs pr col ch, depth, il, anc, fullAnc => by
    intro hanc hlen
    rw [flatten_recursive, annotateNode]
    rw [List.map_cons, List.map_cons]
    congr 1
    · simp only [buildGuidePfx, claimPfx, hanc]
    · by_cases hcol : col = true
      · simp [hcol]
      · simp only [hcol, Bool.false_eq_true, if_false]
        by_cases hd : 0 < depth
        · have hne : fullAnc ≠ [] := by
            intro he
            rw [he] at hlen
            simp at hlen
            omega
          have hdrop : (fullAnc ++ [il]).drop 1 = fullAnc.drop 1 ++ [il] :=
            List.drop_append_of_le_length
              (by cases fullAnc with
                  | nil => exact absurd rfl hne
                  | cons x xs => simp)
          rw [if_pos hd]
          exact flatten_ann_children cs (depth + 1) (anc ++ [il]) (fullAnc ++ [il])
            (by rw [hanc, hdrop]) (by simp [hlen])
        · have hd0 : depth = 0 := by omega
          have hfa : fullAnc = [] := List.eq_nil_of_length_eq_zero (by omega)
          rw [if_neg hd]
          exact flatten_ann_children cs (depth + 1) anc (fullAnc ++ [il])
            (by rw [hanc, hfa]; rfl) (by simp [hlen])

/-- The children form of flatten_ann_node. -/
theorem flatten_ann_children : ∀ (cs : List TreeNode) (depth : Nat)
    (anc fullAnc : List Bool), anc = fullAnc.drop 1 → fullAnc.length = depth →
    (flattenChildren cs depth anc).map
        (fun fn => (fn.depth, TreeFlatNode.guidePfx fn))
      = (annotateChildren cs depth fullAnc).map
        (fun a => (a.1, claimPfx a.1 (a.2.1.drop 1) a.2.2))
  | [], depth, anc, fullAnc => by
    intro _ _
    rfl
  | [c], depth, anc, fullAnc => by
    intro hanc hlen
    rw [flattenChildren, annotateChildren]
    exact flatten_ann_node c depth true anc fullAnc hanc hlen
  | c :: c2 :: cs, depth, anc, fullAnc => by
    intro hanc hlen
    rw [flattenChildren, annotateChildren, List.map_append, List.map_append]
    rw [flatten_ann_node c depth false anc fullAnc hanc hlen]
    rw [flatten_ann_children (c2 :: cs) depth anc fullAnc hanc hlen]

end

/-- C5 (amended): for every forest, the guide string of each flattened node
is the claim's concatenation taken over the ancestors strictly below the
forest root (depths 1 through D-1, root flag dropped), then the connector;
depth-0 nodes get an empty string.  The depth-0 ancestor contributes no
segment. -/
theorem flatten_guide_amended (roots : List TreeNode) :
    (flatten_tree roots).map (fun fn => (fn.depth, TreeFlatNode.guidePfx fn))
      = (annotateForest roots).map
        (fun a => (a.1, claimPfx a.1 (a.2.1.drop 1) a.2.2)) :=
  flatten_ann_children roots 0 [] [] rfl rfl

/-- The concrete forest for the C5 counterexample: one root a with a single
child a/b. -/
def forestC5 : List TreeNode :=
  [TreeNode.mk ["a"] [TreeNode.mk ["a", "b"] [] none false false] none false false]

/-- C5 counterexample: at depth 1 the code emits a bare connector, while the
claim's formula (a segment for each ancestor from the forest root down to
the parent) prescribes an extra three-space segment for the root ancestor:
the emitted strings and the claimed strings differ on this forest. -/
theorem flatten_guide_counterexample :
    (flatten_tree forestC5).map TreeFlatNode.guidePfx = ["", "└─ "]
    ∧ (annotateForest forestC5).map (fun a => claimPfx a.1 a.2.1 a.2.2)
        = ["", "   └─ "]
    ∧ (flatten_tree forestC5).map TreeFlatNode.guidePfx
        ≠ (annotateForest forestC5).map (fun a => claimPfx a.1 a.2.1 a.2.2) :=
  ⟨rfl, rfl, by decide⟩

/-- TreeNode::label (tree.rs lines 33-39): the final path component, or ""
when there is none (file_name().unwrap_or_default()). -/
def TreeNode.label (t : TreeNode) : String := (t.path.getLast?).getD ""

/-- TreeNode::new (tree.rs lines 23-31). -/
def TreeNode.new (path : FsPath) : TreeNode := TreeNode.mk path [] none false false

/-- Assign the project field (nodes[idx].project = Some(project)). -/
def setProject (t : TreeNode) (p : CleanableProject) : TreeNode :=
  match t with
  | TreeNode.mk pa cs _ col ch => TreeNode.mk pa cs (some p) col ch

/-- Replace the children field. -/
def setChildren (t : TreeNode) (cs2 : List TreeNode) : TreeNode :=
  match t with
  | TreeNode.mk pa _ pr col ch => TreeNode.mk pa cs2 pr col ch

/-- The sort key comparison of sort_tree: lower-cased labels. -/
def labelLE (a b : TreeNode) : Prop := a.label.toLower ≤ b.label.toLower

instance : DecidableRel labelLE := fun a b =>
  inferInstanceAs (Decidable (a.label.toLower ≤ b.label.toLower))

mutual

/-- Recursive child sorting of one node (sort_tree recurses into every
node's children). -/
def sortNode : TreeNode → TreeNode
  | TreeNode.mk p cs pr col ch => TreeNode.mk p (sort_tree_rec cs) pr col ch

/-- sortNode applied along a list of children, then the level is sorted. -/
def sortChildrenList : List TreeNode → List TreeNode
  | [] => []
  | c :: cs => sortNode c :: sortChildrenList cs

/-- Models sort_tree (tree.rs lines 146-152): sort every level by
lower-cased label, recursively.  The Rust sorts a level and then recurses
into each node's children; since sorting a level changes no label and no
child list, recursing first and then stably sorting the level yields the
same forest. -/
def sort_tree_rec (ns : List TreeNode) : List TreeNode :=
  List.insertionSort labelLE (sortChildrenList ns)

end

/-- Models insert_path (tree.rs lines 114-142): find (or push) the node
labelled with the head component, then either attach the project (last
component) or recurse into that node's children. -/
def insert_path (nodes : List TreeNode) (components : List String)
    (project : CleanableProject) (current_base : FsPath) : List TreeNode :=
  match components with
  | [] => nodes
  | current_name :: rest =>
    let node_path := current_base ++ [current_name]
    let pair : List TreeNode × Nat :=
      match nodes.findIdx? (fun n => n.label == current_name) with
      | some i => (nodes, i)
      | none => (nodes ++ [TreeNode.new node_path], nodes.length)
    match rest with
    | [] => modifyAt pair.1 pair.2 (fun n => setProject n project)
    | r :: rs =>
      modifyAt pair.1 pair.2
        (fun n => setChildren n (insert_path n.children (r :: rs) project node_path))

/-- strip_prefix over component lists: the relative remainder when the scan
root is a component prefix of the project root. -/
def stripRelative (root_path scan_root : FsPath) : Option FsPath :=
  if scan_root.isPrefixOf root_path then some (root_path.drop scan_root.length)
  else none

/-- The comparison build_tree pre-sorts projects by: root_path cmp
(component-wise lexicographic). -/
def pathLeb : FsPath → FsPath → Bool
  | [], _ => true
  | _ :: _, [] => false
  | a :: as, b :: bs => if a = b then pathLeb as bs else decide (a < b)

/-- root_path ordering of the build_tree pre-sort. -/
def byRootPath (a b : CleanableProject) : Prop := pathLeb a.root_path b.root_path = true

instance : DecidableRel byRootPath := fun _ _ =>
  inferInstanceAs (Decidable (_ = true))

/-- Models build_tree (tree.rs lines 59-112): sort projects by root path,
insert each into the forest (with the fallback root for paths outside the
scan root and the synthetic "." node when the scan root itself is the
project), then recursively sort every level. -/
def build_tree (projects : List CleanableProject) (scan_root : FsPath) : List TreeNode :=
  let projects_sorted := List.insertionSort byRootPath projects
  let roots := projects_sorted.foldl (fun roots project =>
    match stripRelative project.root_path scan_root with
    | none =>
      if project.root_path ≠ [] then
        roots ++ [setProject (TreeNode.new project.root_path) project]
      else roots
    | some relative =>
      let components := relative.filter (fun s => s ≠ "")
      match components with
      | [] =>
        match roots.findIdx? (fun r => r.path == scan_root) with
        | some i => modifyAt roots i (fun r => setProject r project)
        | none => roots ++ [setProject (TreeNode.new scan_root) project]
      | c :: cs => insert_path roots (c :: cs) project scan_root) []
  sort_tree_rec roots

mutual

/-- Models count_checked_projects (app_state.rs lines 366-375). -/
def count_checked_projects : List TreeNode → Nat
  | [] => 0
  | n :: ns => countCheckedNode n + count_checked_projects ns

/-- One node's contribution to count_checked_projects. -/
def countCheckedNode : TreeNode → Nat
  | TreeNode.mk _ cs pr _ ch =>
    (if pr.isSome && ch then 1 else 0) + count_checked_projects cs

end

mutual

/-- Models sum_checked_size (app_state.rs lines 377-389). -/
def sum_checked_size : List TreeNode → Nat
  | [] => 0
  | n :: ns => sumCheckedNode n + sum_checked_size ns

/-- One node's contribution to sum_checked_size. -/
def sumCheckedNode : TreeNode → Nat
  | TreeNode.mk _ cs pr _ ch =>
    (match pr with
     | some p => if ch then p.total_size else 0
     | none => 0) + sum_checked_size cs

end

mutual

/-- Models collect_checked_projects (app_state.rs lines 391-400). -/
def collect_checked_projects : List TreeNode → List CleanableProject
  | [] => []
  | n :: ns => collectCheckedNode n ++ collect_checked_projects ns

/-- One node's contribution to collect_checked_projects. -/
def collectCheckedNode : TreeNode → List CleanableProject
  | TreeNode.mk _ cs pr _ ch =>
    (match pr with
     | some p => if ch then [p] else []
     | none => []) ++ collect_checked_projects cs

end

/-- Models SortMode (src/tui/app_state.rs lines 4-10). -/
inductive SortMode where
  | SizeDesc
  | SizeAsc
  | NameAsc
  | NameDesc
deriving DecidableEq, Repr

/-- The cycle toggle_sort steps through (lines 268-276). -/
def SortMode.next : SortMode → SortMode
  | SortMode.SizeDesc => SortMode.SizeAsc
  | SortMode.SizeAsc => SortMode.NameAsc
  | SortMode.NameAsc => SortMode.NameDesc
  | SortMode.NameDesc => SortMode.SizeDesc

/-- Models FilterMode (lines 12-19). -/
inductive FilterMode where
  | All
  | NodeJs
  | Rust
  | Flutter
  | Android
deriving DecidableEq, Repr

/-- Models FilterMode::next (lines 22-30). -/
def FilterMode.next : FilterMode → FilterMode
  | FilterMode.All => FilterMode.NodeJs
  | FilterMode.NodeJs => FilterMode.Rust
  | FilterMode.Rust => FilterMode.Flutter
  | FilterMode.Flutter => FilterMode.Android
  | FilterMode.Android => FilterMode.All

/-- The filter predicate of refresh_visible (lines 291-297). -/
def FilterMode.keeps : FilterMode → CleanableProject → Bool
  | FilterMode.All, _ => true
  | FilterMode.NodeJs, p => p.strategy_name == "Node.js"
  | FilterMode.Rust, p => p.strategy_name == "Rust"
  | FilterMode.Flutter, p => p.strategy_name == "Flutter"
  | FilterMode.Android, p => p.strategy_name == "Android"

/-- Models ViewMode (lines 45-49). -/
inductive ViewMode where
  | List
  | Tree
deriving DecidableEq, Repr

/-- The four sort comparisons of refresh_visible (lines 305-314):
sort_by_key(Reverse(total_size)), sort_by_key(total_size), and root_path
comparison in both directions. -/
def bySizeDesc (a b : CleanableProject) : Prop := b.total_size ≤ a.total_size

instance : DecidableRel bySizeDesc := fun a b => Nat.decLe b.total_size a.total_size

instance : IsTotal CleanableProject bySizeDesc :=
  ⟨fun a b => Nat.le_total b.total_size a.total_size⟩

instance : IsTrans CleanableProject bySizeDesc :=
  ⟨fun _ _ _ h1 h2 => Nat.le_trans h2 h1⟩

/-- Ascending size comparison. -/
def bySizeAsc (a b : CleanableProject) : Prop := a.total_size ≤ b.total_size

instance : DecidableRel bySizeAsc := fun a b => Nat.decLe a.total_size b.total_size

/-- Ascending root-path comparison. -/
def byNameAsc (a b : CleanableProject) : Prop := pathLeb a.root_path b.root_path = true

instance : DecidableRel byNameAsc := fun _ _ => inferInstanceAs (Decidable (_ = true))

/-- Descending root-path comparison. -/
def byNameDesc (a b : CleanableProject) : Prop := pathLeb b.root_path a.root_path = true

instance : DecidableRel byNameDesc := fun _ _ => inferInstanceAs (Decidable (_ = true))

/-- The sort applied by refresh_visible in List mode (a stable sort, as
Rust sort_by_key / sort_by are). -/
def sortProjects (mode : SortMode) (l : List CleanableProject) : List CleanableProject :=
  match mode with
  | SortMode.SizeDesc => List.insertionSort bySizeDesc l
  | SortMode.SizeAsc => List.insertionSort bySizeAsc l
  | SortMode.NameAsc => List.insertionSort byNameAsc l
  | SortMode.NameDesc => List.insertionSort byNameDesc l

/-- Models AppState (app_state.rs lines 53-96).  The selected-index
HashSet is modelled as a Finset of naturals. -/
structure AppState where
  scan_path : FsPath
  all_projects : List CleanableProject
  visible_projects : List CleanableProject
  selected_index : Nat
  selected_projects : Finset Nat
  sort_mode : SortMode
  filter_mode : FilterMode
  view_mode : ViewMode
  tree_roots : List TreeNode
  show_confirmation : Bool
  deletion_confirmed : Bool
  scanning : Bool
  scanning_path : String
  spinner_index : Nat

/-- Models AppState::new (lines 99-116). -/
def AppState.new (scan_path : FsPath) : AppState :=
  { scan_path := scan_path, all_projects := [], visible_projects := [],
    selected_index := 0, selected_projects := ∅,
    sort_mode := SortMode.SizeDesc, filter_mode := FilterMode.All,
    view_mode := ViewMode.List, tree_roots := [],
    show_confirmation := false, deletion_confirmed := false,
    scanning := true, scanning_path := "", spinner_index := 0 }

/-- Models AppState::visible_count (lines 170-175): the visible list length
in List mode, the flattened-tree length in Tree mode. -/
def AppState.visible_count (s : AppState) : Nat :=
  match s.view_mode with
  | ViewMode.List => s.visible_projects.length
  | ViewMode.Tree => (flatten_tree s.tree_roots).length

/-- Models AppState::refresh_visible (lines 286-335): filter all_projects,
then sort into visible_projects (List mode) or rebuild the forest (Tree
mode), then clamp the cursor. -/
def AppState.refresh_visible (s : AppState) : AppState :=
  let filtered := s.all_projects.filter (fun p => s.filter_mode.keeps p)
  let s2 :=
    match s.view_mode with
    | ViewMode.List => { s with visible_projects := sortProjects s.sort_mode filtered }
    | ViewMode.Tree => { s with tree_roots := build_tree filtered s.scan_path }
  if s2.visible_count ≤ s2.selected_index ∧ 0 < s2.visible_count then
    { s2 with selected_index := s2.visible_count - 1 }
  else s2

/-- Models AppState::add_project (lines 118-121). -/
def AppState.add_project (s : AppState) (p : CleanableProject) : AppState :=
  AppState.refresh_visible { s with all_projects := s.all_projects ++ [p] }

/-- Models AppState::toggle_sort (lines 268-276). -/
def AppState.toggle_sort (s : AppState) : AppState :=
  AppState.refresh_visible { s with sort_mode := s.sort_mode.next }

/-- Models AppState::cycle_filter (lines 278-283). -/
def AppState.cycle_filter (s : AppState) : AppState :=
  AppState.refresh_visible
    { s with filter_mode := s.filter_mode.next, selected_index := 0,
             selected_projects := ∅ }

/-- Models AppState::move_up (lines 256-260). -/
def AppState.move_up (s : AppState) : AppState :=
  if 0 < s.selected_index then { s with selected_index := s.selected_index - 1 }
  else s

/-- Models AppState::move_down (lines 262-266). -/
def AppState.move_down (s : AppState) : AppState :=
  if s.selected_index + 1 < s.visible_count then
    { s with selected_index := s.selected_index + 1 }
  else s

/-- Models AppState::toggle_selection (lines 178-197). -/
def AppState.toggle_selection (s : AppState) : AppState :=
  match s.view_mode with
  | ViewMode.List =>
    if s.visible_projects.isEmpty then s
    else if s.selected_index ∈ s.selected_projects then
      { s with selected_projects := s.selected_projects.erase s.selected_index }
    else { s with selected_projects := insert s.selected_index s.selected_projects }
  | ViewMode.Tree =>
    { s with tree_roots := toggle_selection_tree s.tree_roots s.selected_index }

/-- Models AppState::total_selected_size (lines 223-235): in List mode the
HashSet iteration with filter_map(visible_projects.get) summed, which is
the Finset sum of the in-range sizes (out-of-range indices contribute
nothing); in Tree mode the recursive checked sum. -/
def AppState.total_selected_size (s : AppState) : Nat :=
  match s.view_mode with
  | ViewMode.List =>
    Finset.sum s.selected_projects (fun idx =>
      match s.visible_projects.get? idx with
      | some p => p.total_size
      | none => 0)
  | ViewMode.Tree => sum_checked_size s.tree_roots

/-- Models AppState::get_selected_projects (lines 237-250): the HashSet
iteration (whose order Rust leaves unspecified; the model fixes the sorted
order of the indices) filter_mapped through visible_projects.get; in Tree
mode the recursive checked collection. -/
def AppState.get_selected_projects (s : AppState) : List CleanableProject :=
  match s.view_mode with
  | ViewMode.List =>
    (s.selected_projects.sort (fun a b => a ≤ b)).filterMap
      (fun idx => s.visible_projects.get? idx)
  | ViewMode.Tree => collect_checked_projects s.tree_roots

theorem refresh_visible_preserved (s : AppState) :
    s.refresh_visible.sort_mode = s.sort_mode
    ∧ s.refresh_visible.filter_mode = s.filter_mode
    ∧ s.refresh_visible.selected_projects = s.selected_projects
    ∧ s.refresh_visible.view_mode = s.view_mode := by
  unfold AppState.refresh_visible
  cases hv : s.view_mode <;> simp only [hv] <;> split <;> exact ⟨rfl, rfl, rfl, rfl⟩

theorem refresh_visible_index_zero (s : AppState) (h : s.selected_index = 0) :
    s.refresh_visible.selected_index = 0 := by
  unfold AppState.refresh_visible
  cases hv : s.view_mode <;> simp only [hv] <;> split
  case isTrue h2 =>
    exfalso
    simp only [AppState.visible_count] at h2
    rw [h] at h2
    omega
  case isFalse h2 => exact h
  case isTrue h2 =>
    exfalso
    simp only [AppState.visible_count] at h2
    rw [h] at h2
    omega
  case isFalse h2 => exact h

theorem move_up_count (s : AppState) : s.move_up.visible_count = s.visible_count := by
  unfold AppState.move_up
  split <;> rfl

theorem move_down_count (s : AppState) : s.move_down.visible_count = s.visible_count := by
  unfold AppState.move_down
  split <;> rfl

/-- C6: four toggle_sort calls return sort_mode to its starting value (the
cycle SizeDesc, SizeAsc, NameAsc, NameDesc); and under SizeDesc in List
mode, the refreshed visible list is sorted by size descending: every
adjacent pair (i, i+1) satisfies size at i >= size at i+1. -/
theorem sort_mode_round_trip :
    (∀ s : AppState,
      s.toggle_sort.toggle_sort.toggle_sort.toggle_sort.sort_mode = s.sort_mode)
    ∧ (∀ s : AppState, s.view_mode = ViewMode.List → s.sort_mode = SortMode.SizeDesc →
      List.Chain' (fun a b => b.total_size ≤ a.total_size)
        s.refresh_visible.visible_projects) := by
  constructor
  · intro s
    have h1 : ∀ u : AppState, u.toggle_sort.sort_mode = u.sort_mode.next := by
      intro u
      show (AppState.refresh_visible _).sort_mode = _
      rw [(refresh_visible_preserved _).1]
    rw [h1, h1, h1, h1]
    cases hsm : s.sort_mode <;> rfl
  · intro s hv hm
    have hvis : s.refresh_visible.visible_projects
        = List.insertionSort bySizeDesc
            (s.all_projects.filter (fun p => s.filter_mode.keeps p)) := by
      unfold AppState.refresh_visible
      simp only [hv, hm, sortProjects]
      split <;> rfl
    rw [hvis]
    exact List.Pairwise.chain'
      (List.sorted_insertionSort bySizeDesc
        (s.all_projects.filter (fun p => s.filter_mode.keeps p)))

/-- A small project for the state-machine witnesses. -/
def projA : CleanableProject :=
  { root_path := ["a"], strategy_name := "Rust", targets := [],
    total_size := 1, risk_level := RiskLevel.Low }

/-- A larger project for the state-machine witnesses. -/
def projB : CleanableProject :=
  { root_path := ["b"], strategy_name := "Rust", targets := [],
    total_size := 5, risk_level := RiskLevel.Low }

/-- Concrete state for the C6 witness. -/
def stateC6 : AppState :=
  { AppState.new [] with all_projects := [projA, projB] }

/-- C6 witness: the round trip and the descending order at a concrete
state. -/
theorem sort_mode_round_trip_witness :
    stateC6.toggle_sort.toggle_sort.toggle_sort.toggle_sort.sort_mode = stateC6.sort_mode
    ∧ List.Chain' (fun a b => b.total_size ≤ a.total_size)
        stateC6.refresh_visible.visible_projects :=
  ⟨sort_mode_round_trip.1 stateC6, sort_mode_round_trip.2 stateC6 rfl rfl⟩

/-- C7: in List mode with a non-empty selection set, cycle_filter clears
the List-mode selection set entirely and resets the cursor to 0 (the clamp
in refresh_visible never moves a 0 cursor). -/
theorem cycle_filter_resets (s : AppState) (_hv : s.view_mode = ViewMode.List)
    (_hne : s.selected_projects.Nonempty) :
    s.cycle_filter.selected_projects = ∅ ∧ s.cycle_filter.selected_index = 0 := by
  constructor
  · show (AppState.refresh_visible _).selected_projects = ∅
    rw [(refresh_visible_preserved _).2.2.1]
  · show (AppState.refresh_visible _).selected_index = 0
    exact refresh_visible_index_zero _ rfl

/-- Concrete state for the C7 witness: List mode, index 2 selected. -/
def stateC7 : AppState :=
  { AppState.new [] with
    all_projects := [projA, projB],
    selected_projects := ({2} : Finset Nat) }

/-- C7 witness: cycling the filter on the concrete state clears selection
and resets the cursor. -/
theorem cycle_filter_resets_witness :
    stateC7.cycle_filter.selected_projects = ∅
    ∧ stateC7.cycle_filter.selected_index = 0 :=
  cycle_filter_resets stateC7 rfl ⟨2, by decide⟩

/-- C8 counterexample: on a freshly created AppState the active view is
empty (visible_count = 0); after move_down the cursor is 0, and 0 does not
lie in the empty half-open range [0, 0), so the claimed bound fails for the
empty view. -/
theorem cursor_bound_counterexample :
    (AppState.new []).move_down.selected_index = 0
    ∧ (AppState.new []).move_down.visible_count = 0
    ∧ ¬ ((AppState.new []).move_down.selected_index
          < (AppState.new []).move_down.visible_count) := by
  refine ⟨rfl, rfl, ?_⟩
  decide

/-- C8 (amended): when the cursor is already in range (selected_index <
visible_count, which forces a non-empty view), move_up and move_down keep
it in [0, visible_count); when the view is empty and the cursor is 0 (the
only cursor value the mutators produce for an empty view), both moves leave
it at 0.  In an empty view no cursor value can lie in [0, 0). -/
theorem cursor_stays_in_range (s : AppState) :
    (s.selected_index < s.visible_count →
      s.move_up.selected_index < s.move_up.visible_count
      ∧ s.move_down.selected_index < s.move_down.visible_count)
    ∧ (s.visible_count = 0 → s.selected_index = 0 →
      s.move_up.selected_index = 0 ∧ s.move_down.selected_index = 0) := by
  constructor
  · intro h
    constructor
    · rw [move_up_count]
      unfold AppState.move_up
      split
      · simp only
        omega
      · exact h
    · rw [move_down_count]
      unfold AppState.move_down
      split
      · simp only
        omega
      · exact h
  · intro hc h0
    constructor
    · unfold AppState.move_up
      split
      · omega
      · exact h0
    · unfold AppState.move_down
      split
      · rename_i h2
        rw [hc] at h2
        omega
      · exact h0

/-- Concrete in-range state for the C8 witness. -/
def stateC8 : AppState :=
  { AppState.new [] with visible_projects := [projA] }

/-- C8 witness: the amended cursor bound applied at a concrete in-range
state and at the concrete empty state. -/
theorem cursor_stays_in_range_witness :
    (stateC8.move_up.selected_index < stateC8.move_up.visible_count
      ∧ stateC8.move_down.selected_index < stateC8.move_down.visible_count)
    ∧ ((AppState.new []).move_up.selected_index = 0
      ∧ (AppState.new []).move_down.selected_index = 0) :=
  ⟨(cursor_stays_in_range stateC8).1 (by decide),
   (cursor_stays_in_range (AppState.new [])).2 rfl rfl⟩

theorem filterMap_eq_filterMap_filter {α β : Type} (f : α → Option β) (p : α → Bool)
    (h : ∀ x, p x = false → f x = none) :
    ∀ l : List α, l.filterMap f = (l.filter p).filterMap f := by
  intro l
  induction l with
  | nil => rfl
  | cons a l ih =>
    cases hp : p a
    · rw [List.filterMap_cons, h a hp, List.filter_cons, hp]
      simp only [Bool.false_eq_true, if_false]
      exact ih
    · rw [List.filterMap_cons, List.filter_cons, hp]
      simp only [if_true]
      rw [List.filterMap_cons]
      cases f a <;> simp [ih]

/-- C10: in List mode, stale positional selections are harmless: the
selected-size sum counts only in-range indices; get_selected_projects is
exactly the filter_map over the in-range indices of the iteration (both
queries are total functions of the state: the Option-returning
Vec::get model never panics); every returned project is a visible project;
and inserting any out-of-range index into the selection set leaves the sum
unchanged. -/
theorem stale_selection_harmless (s : AppState) (hv : s.view_mode = ViewMode.List) :
    s.total_selected_size =
      Finset.sum (s.selected_projects.filter (fun i => i < s.visible_projects.length))
        (fun idx => match s.visible_projects.get? idx with
          | some p => p.total_size
          | none => 0)
    ∧ s.get_selected_projects =
        ((s.selected_projects.sort (fun a b => a ≤ b)).filter
          (fun i => decide (i < s.visible_projects.length))).filterMap
            (fun idx => s.visible_projects.get? idx)
    ∧ (∀ q ∈ s.get_selected_projects, q ∈ s.visible_projects)
    ∧ (∀ j, s.visible_projects.length ≤ j →
        ({ s with selected_projects := insert j s.selected_projects }).total_selected_size
          = s.total_selected_size) := by
  have hts : ∀ u : AppState, u.view_mode = ViewMode.List →
      u.total_selected_size = Finset.sum u.selected_projects (fun idx =>
        match u.visible_projects.get? idx with
        | some p => p.total_size
        | none => 0) := by
    intro u hu
    unfold AppState.total_selected_size
    rw [hu]
  have hgs : ∀ u : AppState, u.view_mode = ViewMode.List →
      u.get_selected_projects = (u.selected_projects.sort (fun a b => a ≤ b)).filterMap
        (fun idx => u.visible_projects.get? idx) := by
    intro u hu
    unfold AppState.get_selected_projects
    rw [hu]
  refine ⟨?_, ?_, ?_, ?_⟩
  · rw [hts s hv]
    refine (Finset.sum_filter_of_ne ?_).symm
    intro x _ hne
    cases hg : s.visible_projects.get? x with
    | none => rw [hg] at hne; simp at hne
    | some q =>
      rcases List.get?_eq_some.mp hg with ⟨hlt, _⟩
      exact hlt
  · rw [hgs s hv]
    exact filterMap_eq_filterMap_filter _ _
      (fun x hx => List.get?_eq_none.mpr (by simpa using hx)) _
  · intro q hq
    rw [hgs s hv] at hq
    rcases List.mem_filterMap.mp hq with ⟨idx, _, hidx⟩
    exact List.get?_mem hidx
  · intro j hj
    rw [hts s hv,
      hts { s with selected_projects := insert j s.selected_projects } hv]
    by_cases hmem : j ∈ s.selected_projects
    · rw [show insert j s.selected_projects = s.selected_projects from
        Finset.insert_eq_self.mpr hmem]
    · rw [Finset.sum_insert hmem]
      rw [show s.visible_projects.get? j = none from List.get?_eq_none.mpr hj]
      simp

/-- Concrete state for the C10 witness: two visible projects, selection
holding the in-range index 1 and the stale out-of-range index 5. -/
def stateC10 : AppState :=
  { AppState.new [] with
    visible_projects := [projA, projB],
    selected_projects := ({1, 5} : Finset Nat) }

/-- C10 witness: the in-range characterization and the out-of-range insert
invariance at a concrete state. -/
theorem stale_selection_harmless_witness :
    stateC10.get_selected_projects =
      ((stateC10.selected_projects.sort (fun a b => a ≤ b)).filter
        (fun i => decide (i < stateC10.visible_projects.length))).filterMap
          (fun idx => stateC10.visible_projects.get? idx)
    ∧ ({ stateC10 with
          selected_projects := insert 7 stateC10.selected_projects }).total_selected_size
        = stateC10.total_selected_size :=
  ⟨(stale_selection_harmless stateC10 rfl).2.1,
   (stale_selection_harmless stateC10 rfl).2.2.2 7 (by decide)⟩
